import Mathlib

/-!
Verification of the epoch-bounded history crawler and concurrent aggregation
engine of the `melt` repository (`src/main.rs`).

The Rust program crawls the transaction history of a set of accounts,
restricts it to an epoch range, and aggregates transaction counts and fees
per (account, epoch, program).  Below, each relevant piece of the source is
embedded shallowly:

* the slot/epoch arithmetic (`SLOTS_PER_EPOCH`, `min_slot`, `max_slot`,
  epoch derivation at line 248), with u64 wrap-around made explicit as
  `% 2 ^ 64`;
* the slot-range filter with its mutable `should_break` flag
  (lines 127-139) as `filterSignatures`;
* the per-signature detail fetch task (lines 173-236) as `fetchDetail`,
  with the heterogeneous instruction encodings and index lookups;
* the ledger aggregation (lines 243-266 and 276-292) as association-list
  folds `applyProgram` / `applyResult` / `aggregate` / `mergeExpense`
  (a `HashMap` is modelled as an association list with unique keys,
  `entry().and_modify().or_insert()` as modify-first-match-or-append);
* the chunk partition `valid_signatures.chunks(chunk_size)` (lines 156-160)
  as `chunks` (`none` models the Rust panic on chunk size 0);
* the per-account pagination loop and the whole-run driver
  (lines 80-299) as `processPage` / `crawlAccount` / `crawlAccountE` /
  `runAll`, with page-fetch failures modelled by `Except` and the `?` at
  line 112 as error propagation out of the whole run.
-/

namespace Melt

/-! Definitions -/

/-- Fixed epoch size, `const SLOTS_PER_EPOCH: u64 = 432000` (line 49). -/
def SLOTS_PER_EPOCH : Nat := 432000

/-- Modulus of Rust `u64` arithmetic. -/
def U64 : Nat := 2 ^ 64

/-- Epoch derivation `let epoch = slot / SLOTS_PER_EPOCH` (line 248). -/
def epochOfSlot (slot : Nat) : Nat := slot / SLOTS_PER_EPOCH

/-- Crawl window floor, `let min_slot = args.start_epoch * SLOTS_PER_EPOCH`
(line 61), with u64 wrap-around explicit. -/
def min_slot (start_epoch : Nat) : Nat := start_epoch * SLOTS_PER_EPOCH % U64

/-- Crawl window ceiling,
`let max_slot = (args.end_epoch + 1) * SLOTS_PER_EPOCH - 1` (line 62), each
u64 operation reduced modulo `2 ^ 64`; the final `- 1` is u64 wrapping
subtraction. -/
def max_slot (end_epoch : Nat) : Nat :=
  ((end_epoch + 1) % U64 * SLOTS_PER_EPOCH % U64 + (U64 - 1)) % U64

/-- One entry of a signature page, `(signature, slot)` as returned by
`get_signatures_for_address_with_config` (lines 102-112). -/
structure SignatureEntry where
  signature : String
  slot : Nat
  deriving DecidableEq, Repr

/-- Slot-range filter over one page (lines 127-139).  The Rust closure keeps
entries with `min_slot ≤ slot ≤ max_slot`, and mutates the captured
`should_break` flag to `true` on any entry with `slot < min_slot`; the flag
is threaded explicitly here (second component of the result). -/
def filterSignatures (lo hi : Nat) :
    List SignatureEntry → Bool → List SignatureEntry × Bool
  | [], should_break => ([], should_break)
  | sig :: rest, should_break =>
    if sig.slot < lo then
      filterSignatures lo hi rest true
    else if sig.slot ≤ hi then
      let r := filterSignatures lo hi rest should_break
      (sig :: r.1, r.2)
    else
      filterSignatures lo hi rest should_break

/-- An instruction of a parsed (`UiMessage::Parsed`) message that already
carries an explicit program id (`UiParsedInstruction::Parsed`, line 198). -/
structure UiParsedIx where
  program_id : String
  deriving DecidableEq, Repr

/-- An instruction that still carries an explicit program id
(`UiParsedInstruction::PartiallyDecoded`, line 201; the constructor name is
shortened here). -/
structure UiPartDecodedIx where
  program_id : String
  deriving DecidableEq, Repr

/-- A compiled instruction referencing its program by index into the
account-keys table (`UiInstruction::Compiled`, line 206). -/
structure UiCompiledIx where
  program_id_index : Nat
  deriving DecidableEq, Repr

/-- The three instruction shapes of a parsed message (lines 195-212). -/
inductive ParsedInstruction where
  | parsed (ix : UiParsedIx)
  | partDecoded (ix : UiPartDecodedIx)
  | compiled (ix : UiCompiledIx)
  deriving DecidableEq, Repr

/-- One entry of a parsed message's account-keys table (`.pubkey` is read at
line 209). -/
structure ParsedAccountKey where
  pubkey : String
  deriving DecidableEq, Repr

/-- A parsed message (`UiMessage::Parsed`, lines 191-214). -/
structure ParsedMessage where
  account_keys : List ParsedAccountKey
  instructions : List ParsedInstruction
  deriving DecidableEq, Repr

/-- A raw compiled instruction (`UiMessage::Raw`, lines 216-217). -/
structure RawInstruction where
  program_id_index : Nat
  deriving DecidableEq, Repr

/-- A raw message with plain string account keys (lines 215-224). -/
structure RawMessage where
  account_keys : List String
  instructions : List RawInstruction
  deriving DecidableEq, Repr

/-- The two message shapes handled at lines 190-225. -/
inductive UiMessage where
  | parsed (m : ParsedMessage)
  | raw (m : RawMessage)
  deriving DecidableEq, Repr

/-- The transaction encoding: the code only extracts from
`EncodedTransaction::Json` (line 187); every other encoding falls through to
`None`. -/
inductive EncodedTransaction where
  | json (message : UiMessage)
  | other
  deriving DecidableEq, Repr

/-- Transaction metadata carrying the fee (lines 183-185). -/
structure TxMeta where
  fee : Nat
  deriving DecidableEq, Repr

/-- The RPC transaction response: optional metadata plus the encoded
transaction. -/
structure TxResponse where
  meta : Option TxMeta
  transaction : EncodedTransaction
  deriving DecidableEq, Repr

/-- Outcome of `Signature::from_str` plus `get_transaction` for one
signature (lines 174-178): parse failure, fetch failure, or a response. -/
inductive FetchOutcome where
  | badSignature
  | err
  | ok (tx : TxResponse)
  deriving DecidableEq, Repr

/-- Program-id extraction from one instruction of a parsed message
(lines 195-212): explicit ids are pushed directly; a compiled instruction's
index is looked up in `parsed_msg.account_keys` only when in bounds. -/
def extractParsedIx (msg : ParsedMessage) : ParsedInstruction → List String
  | .parsed ix => [ix.program_id]
  | .partDecoded ix => [ix.program_id]
  | .compiled ix =>
    if h : ix.program_id_index < msg.account_keys.length then
      [(msg.account_keys.get ⟨ix.program_id_index, h⟩).pubkey]
    else []

/-- Program-id extraction from one raw instruction (lines 216-223): the
index is looked up in `raw_msg.account_keys` only when in bounds. -/
def extractRawIx (msg : RawMessage) (ix : RawInstruction) : List String :=
  if h : ix.program_id_index < msg.account_keys.length then
    [msg.account_keys.get ⟨ix.program_id_index, h⟩]
  else []

/-- All program ids pushed for a message's top-level instructions, in
instruction order (lines 190-225). -/
def extractProgramIds : UiMessage → List String
  | .parsed m => m.instructions.flatMap (extractParsedIx m)
  | .raw m => m.instructions.flatMap (extractRawIx m)

/-- Result of one successful detail fetch, the tuple
`Some((slot, fee, program_ids))` returned at line 228. -/
structure DetailResult where
  slot : Nat
  fee : Nat
  program_ids : List String
  deriving DecidableEq, Repr

/-- The detail-fetch task body (lines 173-236): signature-parse failure and
fetch failure give `none`; the fee defaults to 0 when metadata is absent;
only a `Json`-encoded transaction with a non-empty extracted program-id
list yields `some`. -/
def fetchDetail (slot : Nat) : FetchOutcome → Option DetailResult
  | .badSignature => none
  | .err => none
  | .ok tx =>
    let fee := match tx.meta with
      | some m => m.fee
      | none => 0
    match tx.transaction with
    | .json msg =>
      let program_ids := extractProgramIds msg
      if program_ids.isEmpty then none else some ⟨slot, fee, program_ids⟩
    | .other => none

/-- Per-account ledger key `(epoch, program_id)` (line 96). -/
abbrev Key := Nat × String

/-- One ledger record, struct `ProgramExpense` (lines 40-47). -/
structure ProgramExpense where
  account : String
  epoch : Nat
  program_id : String
  transaction_count : Nat
  total_fees_lamports : Nat
  deriving DecidableEq, Repr

/-- The per-account `HashMap<(u64, String), ProgramExpense>` modelled as an
association list with unique keys. -/
abbrev Ledger := List (Key × ProgramExpense)

/-- Map lookup. -/
def lookupL : Ledger → Key → Option ProgramExpense
  | [], _ => none
  | kv :: rest, k => if kv.1 = k then some kv.2 else lookupL rest k

/-- The `and_modify` closure (lines 253-256): one more transaction touch and
the full fee added. -/
def modifyAdd (fee : Nat) (e : ProgramExpense) : ProgramExpense :=
  { e with
    transaction_count := e.transaction_count + 1,
    total_fees_lamports := e.total_fees_lamports + fee }

/-- Modify the (unique) entry holding key `k`. -/
def modifyFirst (k : Key) (fee : Nat) : Ledger → Ledger
  | [] => []
  | kv :: rest =>
    if kv.1 = k then (kv.1, modifyAdd fee kv.2) :: rest
    else kv :: modifyFirst k fee rest

/-- One `entry((epoch, program_id)).and_modify(..).or_insert(..)` step
(lines 250-264): existing records get `+1` count and `+fee`; a missing key
is inserted with count 1 and the full fee. -/
def applyProgram (account : String) (epoch fee : Nat) (l : Ledger)
    (program_id : String) : Ledger :=
  match lookupL l (epoch, program_id) with
  | some _ => modifyFirst (epoch, program_id) fee l
  | none =>
    l ++ [((epoch, program_id),
      { account := account, epoch := epoch, program_id := program_id,
        transaction_count := 1, total_fees_lamports := fee })]

/-- Folding one `Some((slot, fee, program_ids))` result into the per-account
ledger: one `applyProgram` step per element of `program_ids`, in order
(lines 248-264). -/
def applyResult (account : String) (l : Ledger) (r : DetailResult) : Ledger :=
  r.program_ids.foldl (applyProgram account (r.slot / SLOTS_PER_EPOCH) r.fee) l

/-- Folding a batch of collected detail results into the ledger, in order
(lines 243-266). -/
def aggregate (account : String) (l : Ledger) (rs : List DetailResult) : Ledger :=
  rs.foldl (applyResult account) l

/-- Occurrence weight of key `k` in one detail result: the number of times
`k.2` appears in `program_ids`, provided the result's epoch is `k.1`. -/
def occ (k : Key) (r : DetailResult) : Nat :=
  if k.1 = r.slot / SLOTS_PER_EPOCH then r.program_ids.count k.2 else 0

/-- Total occurrence weight of key `k` over a result list. -/
def cnt (k : Key) (rs : List DetailResult) : Nat := (rs.map (occ k)).sum

/-- Total fee weight of key `k` over a result list. -/
def feeC (k : Key) (rs : List DetailResult) : Nat :=
  (rs.map (fun r => r.fee * occ k r)).sum

/-- Transaction-count value stored at key `k` (0 when absent). -/
def countAt (l : Ledger) (k : Key) : Nat :=
  match lookupL l k with
  | some e => e.transaction_count
  | none => 0

/-- Fee value stored at key `k` (0 when absent). -/
def feeAt (l : Ledger) (k : Key) : Nat :=
  match lookupL l k with
  | some e => e.total_fees_lamports
  | none => 0

/-- Sum of `transaction_count` over all ledger records (a row-sum of the
exported table, lines 369-380). -/
def sumCount (l : Ledger) : Nat :=
  (l.map (fun kv => kv.2.transaction_count)).sum

/-- Sum of `total_fees_lamports` over all ledger records. -/
def sumFee (l : Ledger) : Nat :=
  (l.map (fun kv => kv.2.total_fees_lamports)).sum

/-- Well-formedness: every stored record's identity fields agree with its
key and the crawled account. -/
def WFL (account : String) (l : Ledger) : Prop :=
  ∀ k e, lookupL l k = some e →
    e.account = account ∧ e.epoch = k.1 ∧ e.program_id = k.2

/-- Positivity: every stored record has been touched at least once. -/
def POSL (l : Ledger) : Prop :=
  ∀ k e, lookupL l k = some e → 0 < e.transaction_count

/-- Fuel-indexed chunking loop; with `fuel ≥ l.length` and `0 < c` this is
Rust's `slice::chunks(c)`. -/
def chunksGo (c : Nat) : Nat → List SignatureEntry → List (List SignatureEntry)
  | 0, _ => []
  | _ + 1, [] => []
  | fuel + 1, x :: xs => (x :: xs).take c :: chunksGo c fuel ((x :: xs).drop c)

/-- Total chunking function used by the orchestrator model. -/
def chunksL (c : Nat) (l : List SignatureEntry) : List (List SignatureEntry) :=
  chunksGo c l.length l

/-- The chunk partition `valid_signatures.chunks(chunk_size)`
(lines 156-160): Rust panics when `chunk_size == 0`, modelled by `none`. -/
def chunks (c : Nat) (l : List SignatureEntry) :
    Option (List (List SignatureEntry)) :=
  if c = 0 then none else some (chunksL c l)

/-- Mutable per-account crawl state of the loop at lines 92-274: the
`before` cursor, the `should_break` flag, the per-account ledger and the
per-account tallies `total_fees` / `processed`. -/
structure CrawlState where
  before : Option String
  should_break : Bool
  ledger : Ledger
  total_fees : Nat
  processed : Nat
  deriving DecidableEq, Repr

/-- Initial per-account state (lines 92-98). -/
def initState : CrawlState :=
  { before := none, should_break := false, ledger := [], total_fees := 0,
    processed := 0 }

/-- Processing of one chunk's collected results (lines 162-267): every
`Ok(Some(..))` join result bumps `total_fees` and `processed` and is folded
into the ledger; `None` results contribute nothing.  `txOf` is the RPC
detail oracle. -/
def processChunk (account : String) (txOf : String → FetchOutcome)
    (s : CrawlState) (chunk : List SignatureEntry) : CrawlState :=
  let results := chunk.filterMap (fun e => fetchDetail e.slot (txOf e.signature))
  { s with
    total_fees := s.total_fees + (results.map DetailResult.fee).sum,
    processed := s.processed + results.length,
    ledger := aggregate account s.ledger results }

/-- One iteration of the pagination loop (lines 100-274) on an already
fetched page.  Returns the new state and whether the loop breaks: an empty
page breaks immediately (line 114); otherwise the cursor advances to the
last entry of the *unfiltered* page (lines 122-124), the page is
range-filtered, and — after processing the surviving entries chunk by
chunk — the loop breaks exactly when `should_break` is set
(lines 141-146 and 271-273). -/
def processPage (account : String) (lo hi c : Nat) (txOf : String → FetchOutcome)
    (s : CrawlState) (page : List SignatureEntry) : CrawlState × Bool :=
  if page.isEmpty then (s, true)
  else
    let fb := filterSignatures lo hi page s.should_break
    let s1 : CrawlState :=
      { s with
        before := page.getLast?.map SignatureEntry.signature,
        should_break := fb.2 }
    if fb.1.isEmpty then (s1, fb.2)
    else ((chunksL c fb.1).foldl (processChunk account txOf) s1, fb.2)

/-- The per-account pagination loop driven by a script of successive page
responses (the pages the RPC returns for the successive cursors). -/
def crawlAccount (account : String) (lo hi c : Nat) (txOf : String → FetchOutcome) :
    CrawlState → List (List SignatureEntry) → CrawlState
  | s, [] => s
  | s, page :: rest =>
    let r := processPage account lo hi c txOf s page
    if r.2 then r.1 else crawlAccount account lo hi c txOf r.1 rest

/-- The pagination loop when page fetches can fail: the `?` at line 112
propagates the first failed page fetch, discarding the account state built
so far. -/
def crawlAccountE (account : String) (lo hi c : Nat) (txOf : String → FetchOutcome) :
    CrawlState → List (Except Unit (List SignatureEntry)) → Except Unit CrawlState
  | s, [] => Except.ok s
  | _, Except.error e :: _ => Except.error e
  | s, Except.ok page :: rest =>
    let r := processPage account lo hi c txOf s page
    if r.2 then Except.ok r.1 else crawlAccountE account lo hi c txOf r.1 rest

/-- Cross-account ledger key `(account, epoch, program_id)` (line 75). -/
abbrev GKey := String × Nat × String

/-- The cross-account `HashMap<(String, u64, String), ProgramExpense>`. -/
abbrev GlobalLedger := List (GKey × ProgramExpense)

/-- Map lookup in the cross-account ledger. -/
def lookupG : GlobalLedger → GKey → Option ProgramExpense
  | [], _ => none
  | kv :: rest, k => if kv.1 = k then some kv.2 else lookupG rest k

/-- The cross-account `and_modify` closure (lines 284-287): both counters
of the per-account record are added. -/
def addExpense (src e : ProgramExpense) : ProgramExpense :=
  { e with
    transaction_count := e.transaction_count + src.transaction_count,
    total_fees_lamports := e.total_fees_lamports + src.total_fees_lamports }

/-- Modify the (unique) cross-account entry holding key `k`. -/
def modifyFirstG (k : GKey) (src : ProgramExpense) : GlobalLedger → GlobalLedger
  | [] => []
  | kv :: rest =>
    if kv.1 = k then (kv.1, addExpense src kv.2) :: rest
    else kv :: modifyFirstG k src rest

/-- Merge one per-account record into the cross-account ledger
(lines 277-289). -/
def mergeExpense (g : GlobalLedger) (kv : Key × ProgramExpense) : GlobalLedger :=
  let e := kv.2
  match lookupG g (e.account, e.epoch, e.program_id) with
  | some _ => modifyFirstG (e.account, e.epoch, e.program_id) e g
  | none => g ++ [((e.account, e.epoch, e.program_id), e)]

/-- Whole-run accumulator: cross-account ledger and grand totals
(lines 75-77). -/
structure RunState where
  all : GlobalLedger
  grand_total_fees : Nat
  grand_total_processed : Nat
  deriving DecidableEq, Repr

/-- Folding one finished account into the run state (lines 276-292). -/
def mergeAccount (g : RunState) (s : CrawlState) : RunState :=
  { all := s.ledger.foldl mergeExpense g.all,
    grand_total_fees := g.grand_total_fees + s.total_fees,
    grand_total_processed := g.grand_total_processed + s.processed }

/-- The whole-run driver over all configured accounts (lines 80-299): each
account is crawled from a fresh state; a page-fetch failure propagates out
of `main` via `?`, so the failing account is never merged and no output is
produced. -/
def runAll (lo hi c : Nat) (txOf : String → FetchOutcome) :
    RunState → List (String × List (Except Unit (List SignatureEntry)))
      → Except Unit RunState
  | g, [] => Except.ok g
  | g, (account, script) :: rest =>
    match crawlAccountE account lo hi c txOf initState script with
    | Except.error e => Except.error e
    | Except.ok s => runAll lo hi c txOf (mergeAccount g s) rest

/-- Sum of `transaction_count` over the cross-account ledger. -/
def sumCountG (g : GlobalLedger) : Nat :=
  (g.map (fun kv => kv.2.transaction_count)).sum

/-- Sum of `total_fees_lamports` over the cross-account ledger. -/
def sumFeeG (g : GlobalLedger) : Nat :=
  (g.map (fun kv => kv.2.total_fees_lamports)).sum

/-! Basic facts -/

theorem SLOTS_PER_EPOCH_pos : 0 < SLOTS_PER_EPOCH := by decide

theorem filterSignatures_fst (lo hi : Nat) (page : List SignatureEntry) :
    ∀ b, (filterSignatures lo hi page b).1
      = page.filter (fun e => decide (lo ≤ e.slot) && decide (e.slot ≤ hi)) := by
  induction page with
  | nil => intro b; rfl
  | cons e rest ih =>
    intro b
    by_cases h1 : e.slot < lo
    · have : ¬ (lo ≤ e.slot) := by omega
      simp [filterSignatures, h1, ih, List.filter_cons, this]
    · by_cases h2 : e.slot ≤ hi
      · have : lo ≤ e.slot := by omega
        simp [filterSignatures, h1, h2, ih, List.filter_cons, this]
      · simp [filterSignatures, h1, h2, ih, List.filter_cons]

theorem filterSignatures_snd (lo hi : Nat) (page : List SignatureEntry) :
    ∀ b, (filterSignatures lo hi page b).2
      = (b || page.any (fun e => decide (e.slot < lo))) := by
  induction page with
  | nil => intro b; simp [filterSignatures]
  | cons e rest ih =>
    intro b
    by_cases h1 : e.slot < lo
    · simp [filterSignatures, h1, ih]
    · by_cases h2 : e.slot ≤ hi
      · simp [filterSignatures, h1, h2, ih]
      · simp [filterSignatures, h1, h2, ih]

theorem lookupL_modifyFirst_same (k : Key) (fee : Nat) (l : Ledger) :
    lookupL (modifyFirst k fee l) k = (lookupL l k).map (modifyAdd fee) := by
  induction l with
  | nil => rfl
  | cons kv rest ih =>
    by_cases h : kv.1 = k
    · simp [modifyFirst, lookupL, h]
    · simp [modifyFirst, lookupL, h, ih]

theorem lookupL_modifyFirst_ne (k k' : Key) (fee : Nat) (l : Ledger)
    (h : k' ≠ k) :
    lookupL (modifyFirst k fee l) k' = lookupL l k' := by
  induction l with
  | nil => rfl
  | cons kv rest ih =>
    by_cases h2 : kv.1 = k
    · have h3 : ¬ kv.1 = k' := by
        rw [h2]
        exact fun hh => h hh.symm
      have h4 : ¬ k = k' := fun hh => h hh.symm
      simp [modifyFirst, lookupL, h2, h3, h4]
    · simp [modifyFirst, lookupL, h2, ih]

theorem lookupL_append (l m : Ledger) (k : Key) :
    lookupL (l ++ m) k
      = match lookupL l k with
        | some e => some e
        | none => lookupL m k := by
  induction l with
  | nil => simp [lookupL]
  | cons kv rest ih =>
    by_cases h : kv.1 = k
    · simp [lookupL, h]
    · simp [lookupL, h, ih]

theorem lookupL_applyProgram (account : String) (ep fee : Nat) (pid : String)
    (l : Ledger) (k : Key) :
    lookupL (applyProgram account ep fee l pid) k
      = if k = (ep, pid) then
          match lookupL l (ep, pid) with
          | some e => some (modifyAdd fee e)
          | none => some (ProgramExpense.mk account ep pid 1 fee)
        else lookupL l k := by
  unfold applyProgram
  cases hl : lookupL l (ep, pid) with
  | some e =>
    by_cases hk : k = (ep, pid)
    · subst hk
      rw [lookupL_modifyFirst_same, hl]
      simp
    · rw [lookupL_modifyFirst_ne _ _ _ _ hk, if_neg hk]
  | none =>
    rw [lookupL_append]
    by_cases hk : k = (ep, pid)
    · subst hk
      rw [hl]
      simp [lookupL]
    · have h3 : ¬ (ep, pid) = k := fun hh => hk hh.symm
      cases h2 : lookupL l k with
      | some x => simp [h2, hk]
      | none => simp [h2, hk, lookupL, h3]

theorem countAt_nil (k : Key) : countAt [] k = 0 := rfl

theorem feeAt_nil (k : Key) : feeAt [] k = 0 := rfl

theorem countAt_applyProgram (account : String) (ep fee : Nat) (pid : String)
    (l : Ledger) (k : Key) :
    countAt (applyProgram account ep fee l pid) k
      = countAt l k + if k = (ep, pid) then 1 else 0 := by
  unfold countAt
  rw [lookupL_applyProgram]
  by_cases hk : k = (ep, pid)
  · subst hk
    cases hl : lookupL l (ep, pid) with
    | some e => simp [modifyAdd]
    | none => simp
  · simp [hk]

theorem feeAt_applyProgram (account : String) (ep fee : Nat) (pid : String)
    (l : Ledger) (k : Key) :
    feeAt (applyProgram account ep fee l pid) k
      = feeAt l k + if k = (ep, pid) then fee else 0 := by
  unfold feeAt
  rw [lookupL_applyProgram]
  by_cases hk : k = (ep, pid)
  · subst hk
    cases hl : lookupL l (ep, pid) with
    | some e => simp [modifyAdd]
    | none => simp
  · simp [hk]

theorem countAt_foldl_ids (account : String) (ep fee : Nat) (ids : List String)
    (l : Ledger) (k : Key) :
    countAt (ids.foldl (applyProgram account ep fee) l) k
      = countAt l k + (if k.1 = ep then ids.count k.2 else 0) := by
  induction ids generalizing l with
  | nil => simp
  | cons p rest ih =>
    rw [List.foldl_cons, ih, countAt_applyProgram]
    obtain ⟨k1, k2⟩ := k
    by_cases h1 : k1 = ep
    · subst h1
      by_cases h2 : k2 = p
      · subst h2
        simp [List.count_cons]
        omega
      · have h2' : ¬ (p == k2) = true := by
          simp
          exact fun hh => h2 hh.symm
        simp [List.count_cons, h2, h2']
    · simp [h1, Prod.ext_iff]

theorem feeAt_foldl_ids (account : String) (ep fee : Nat) (ids : List String)
    (l : Ledger) (k : Key) :
    feeAt (ids.foldl (applyProgram account ep fee) l) k
      = feeAt l k + fee * (if k.1 = ep then ids.count k.2 else 0) := by
  induction ids generalizing l with
  | nil => simp
  | cons p rest ih =>
    rw [List.foldl_cons, ih, feeAt_applyProgram]
    obtain ⟨k1, k2⟩ := k
    by_cases h1 : k1 = ep
    · subst h1
      by_cases h2 : k2 = p
      · subst h2
        simp [List.count_cons, Nat.mul_add]
        omega
      · have h2' : ¬ (p == k2) = true := by
          simp
          exact fun hh => h2 hh.symm
        simp [List.count_cons, h2, h2']
    · simp [h1, Prod.ext_iff]

theorem countAt_applyResult (account : String) (l : Ledger) (r : DetailResult)
    (k : Key) :
    countAt (applyResult account l r) k = countAt l k + occ k r := by
  unfold applyResult occ
  rw [countAt_foldl_ids]

theorem feeAt_applyResult (account : String) (l : Ledger) (r : DetailResult)
    (k : Key) :
    feeAt (applyResult account l r) k = feeAt l k + r.fee * occ k r := by
  unfold applyResult occ
  rw [feeAt_foldl_ids]

theorem cnt_cons (k : Key) (r : DetailResult) (rs : List DetailResult) :
    cnt k (r :: rs) = occ k r + cnt k rs := by
  simp [cnt]

theorem feeC_cons (k : Key) (r : DetailResult) (rs : List DetailResult) :
    feeC k (r :: rs) = r.fee * occ k r + feeC k rs := by
  simp [feeC]

theorem countAt_aggregate (account : String) (rs : List DetailResult)
    (l : Ledger) (k : Key) :
    countAt (aggregate account l rs) k = countAt l k + cnt k rs := by
  induction rs generalizing l with
  | nil => simp [aggregate, cnt]
  | cons r rest ih =>
    have h1 : aggregate account l (r :: rest)
        = aggregate account (applyResult account l r) rest := rfl
    rw [h1, ih, countAt_applyResult, cnt_cons]
    omega

theorem feeAt_aggregate (account : String) (rs : List DetailResult)
    (l : Ledger) (k : Key) :
    feeAt (aggregate account l rs) k = feeAt l k + feeC k rs := by
  induction rs generalizing l with
  | nil => simp [aggregate, feeC]
  | cons r rest ih =>
    have h1 : aggregate account l (r :: rest)
        = aggregate account (applyResult account l r) rest := rfl
    rw [h1, ih, feeAt_applyResult, feeC_cons]
    omega

theorem WFL_nil (account : String) : WFL account [] := by
  intro k e h
  simp [lookupL] at h

theorem POSL_nil : POSL [] := by
  intro k e h
  simp [lookupL] at h

theorem WFL_applyProgram (account : String) (ep fee : Nat) (pid : String)
    (l : Ledger) (hw : WFL account l) :
    WFL account (applyProgram account ep fee l pid) := by
  intro k e he
  rw [lookupL_applyProgram] at he
  by_cases hk : k = (ep, pid)
  · subst hk
    rw [if_pos rfl] at he
    cases hl : lookupL l (ep, pid) with
    | some e0 =>
      rw [hl] at he
      simp at he
      obtain ⟨h1, h2, h3⟩ := hw _ _ hl
      rw [← he]
      exact ⟨h1, h2, h3⟩
    | none =>
      rw [hl] at he
      simp at he
      rw [← he]
      exact ⟨rfl, rfl, rfl⟩
  · rw [if_neg hk] at he
    exact hw k e he

theorem POSL_applyProgram (account : String) (ep fee : Nat) (pid : String)
    (l : Ledger) (hp : POSL l) :
    POSL (applyProgram account ep fee l pid) := by
  intro k e he
  rw [lookupL_applyProgram] at he
  by_cases hk : k = (ep, pid)
  · subst hk
    rw [if_pos rfl] at he
    cases hl : lookupL l (ep, pid) with
    | some e0 =>
      rw [hl] at he
      simp at he
      rw [← he]
      simp [modifyAdd]
    | none =>
      rw [hl] at he
      simp at he
      rw [← he]
      simp
  · rw [if_neg hk] at he
    exact hp k e he

theorem WFL_foldl_ids (account : String) (ep fee : Nat) (ids : List String)
    (l : Ledger) (hw : WFL account l) :
    WFL account (ids.foldl (applyProgram account ep fee) l) := by
  induction ids generalizing l with
  | nil => exact hw
  | cons p rest ih =>
    rw [List.foldl_cons]
    exact ih _ (WFL_applyProgram _ _ _ _ _ hw)

theorem POSL_foldl_ids (account : String) (ep fee : Nat) (ids : List String)
    (l : Ledger) (hp : POSL l) :
    POSL (ids.foldl (applyProgram account ep fee) l) := by
  induction ids generalizing l with
  | nil => exact hp
  | cons p rest ih =>
    rw [List.foldl_cons]
    exact ih _ (POSL_applyProgram _ _ _ _ _ hp)

theorem WFL_aggregate (account : String) (rs : List DetailResult) (l : Ledger)
    (hw : WFL account l) :
    WFL account (aggregate account l rs) := by
  induction rs generalizing l with
  | nil => exact hw
  | cons r rest ih =>
    exact ih _ (WFL_foldl_ids _ _ _ _ _ hw)

theorem POSL_aggregate (account : String) (rs : List DetailResult) (l : Ledger)
    (hp : POSL l) :
    POSL (aggregate account l rs) := by
  induction rs generalizing l with
  | nil => exact hp
  | cons r rest ih =>
    exact ih _ (POSL_foldl_ids _ _ _ _ _ hp)

theorem lookupL_eq_pointwise (account : String) (l : Ledger)
    (hw : WFL account l) (hp : POSL l) (k : Key) :
    lookupL l k
      = if countAt l k = 0 then none
        else some (ProgramExpense.mk account k.1 k.2 (countAt l k) (feeAt l k)) := by
  cases hl : lookupL l k with
  | none => simp [countAt, hl]
  | some e =>
    obtain ⟨h1, h2, h3⟩ := hw k e hl
    have h4 := hp k e hl
    have hc : countAt l k = e.transaction_count := by simp [countAt, hl]
    have hf : feeAt l k = e.total_fees_lamports := by simp [feeAt, hl]
    rw [hc, hf, if_neg (by omega)]
    cases e
    simp_all

theorem sumCount_cons (kv : Key × ProgramExpense) (l : Ledger) :
    sumCount (kv :: l) = kv.2.transaction_count + sumCount l := by
  simp [sumCount]

theorem sumFee_cons (kv : Key × ProgramExpense) (l : Ledger) :
    sumFee (kv :: l) = kv.2.total_fees_lamports + sumFee l := by
  simp [sumFee]

theorem sumCount_append_single (l : Ledger) (k : Key) (e : ProgramExpense) :
    sumCount (l ++ [(k, e)]) = sumCount l + e.transaction_count := by
  simp [sumCount]

theorem sumFee_append_single (l : Ledger) (k : Key) (e : ProgramExpense) :
    sumFee (l ++ [(k, e)]) = sumFee l + e.total_fees_lamports := by
  simp [sumFee]

theorem sumCount_modifyFirst (k : Key) (fee : Nat) :
    ∀ l : Ledger, (lookupL l k).isSome = true →
      sumCount (modifyFirst k fee l) = sumCount l + 1 := by
  intro l
  induction l with
  | nil => intro h; simp [lookupL] at h
  | cons kv rest ih =>
    intro h
    by_cases h2 : kv.1 = k
    · simp only [modifyFirst, if_pos h2]
      rw [sumCount_cons, sumCount_cons]
      simp [modifyAdd]
      omega
    · have h' : (lookupL rest k).isSome = true := by
        simpa [lookupL, h2] using h
      simp only [modifyFirst, if_neg h2]
      rw [sumCount_cons, sumCount_cons, ih h']
      omega

theorem sumFee_modifyFirst (k : Key) (fee : Nat) :
    ∀ l : Ledger, (lookupL l k).isSome = true →
      sumFee (modifyFirst k fee l) = sumFee l + fee := by
  intro l
  induction l with
  | nil => intro h; simp [lookupL] at h
  | cons kv rest ih =>
    intro h
    by_cases h2 : kv.1 = k
    · simp only [modifyFirst, if_pos h2]
      rw [sumFee_cons, sumFee_cons]
      simp [modifyAdd]
      omega
    · have h' : (lookupL rest k).isSome = true := by
        simpa [lookupL, h2] using h
      simp only [modifyFirst, if_neg h2]
      rw [sumFee_cons, sumFee_cons, ih h']
      omega

theorem sumCount_applyProgram (account : String) (ep fee : Nat) (pid : String)
    (l : Ledger) :
    sumCount (applyProgram account ep fee l pid) = sumCount l + 1 := by
  unfold applyProgram
  cases hl : lookupL l (ep, pid) with
  | some e => exact sumCount_modifyFirst _ _ _ (by simp [hl])
  | none => rw [sumCount_append_single]

theorem sumFee_applyProgram (account : String) (ep fee : Nat) (pid : String)
    (l : Ledger) :
    sumFee (applyProgram account ep fee l pid) = sumFee l + fee := by
  unfold applyProgram
  cases hl : lookupL l (ep, pid) with
  | some e => exact sumFee_modifyFirst _ _ _ (by simp [hl])
  | none => rw [sumFee_append_single]

theorem sumCount_foldl_ids (account : String) (ep fee : Nat) (ids : List String) :
    ∀ l : Ledger,
      sumCount (ids.foldl (applyProgram account ep fee) l)
        = sumCount l + ids.length := by
  induction ids with
  | nil => intro l; simp
  | cons p rest ih =>
    intro l
    rw [List.foldl_cons, ih, sumCount_applyProgram, List.length_cons]
    omega

theorem sumFee_foldl_ids (account : String) (ep fee : Nat) (ids : List String) :
    ∀ l : Ledger,
      sumFee (ids.foldl (applyProgram account ep fee) l)
        = sumFee l + fee * ids.length := by
  induction ids with
  | nil => intro l; simp
  | cons p rest ih =>
    intro l
    rw [List.foldl_cons, ih, sumFee_applyProgram, List.length_cons, Nat.mul_succ]
    omega

theorem sumCount_applyResult (account : String) (l : Ledger) (r : DetailResult) :
    sumCount (applyResult account l r) = sumCount l + r.program_ids.length := by
  unfold applyResult
  rw [sumCount_foldl_ids]

theorem sumFee_applyResult (account : String) (l : Ledger) (r : DetailResult) :
    sumFee (applyResult account l r) = sumFee l + r.fee * r.program_ids.length := by
  unfold applyResult
  rw [sumFee_foldl_ids]

theorem sumCount_aggregate (account : String) (rs : List DetailResult) :
    ∀ l : Ledger,
      sumCount (aggregate account l rs)
        = sumCount l + (rs.map (fun r => r.program_ids.length)).sum := by
  induction rs with
  | nil => intro l; simp [aggregate]
  | cons r rest ih =>
    intro l
    have h1 : aggregate account l (r :: rest)
        = aggregate account (applyResult account l r) rest := rfl
    rw [h1, ih, sumCount_applyResult]
    simp
    omega

theorem sumFee_aggregate (account : String) (rs : List DetailResult) :
    ∀ l : Ledger,
      sumFee (aggregate account l rs)
        = sumFee l + (rs.map (fun r => r.fee * r.program_ids.length)).sum := by
  induction rs with
  | nil => intro l; simp [aggregate]
  | cons r rest ih =>
    intro l
    have h1 : aggregate account l (r :: rest)
        = aggregate account (applyResult account l r) rest := rfl
    rw [h1, ih, sumFee_applyResult]
    simp
    omega

/-! Claim theorems for C8 and C2 -/

/-- Claim C8: epoch derivation is the exact integer partition
`epoch(s) = s / 432000`: it is non-decreasing in `s`, epoch `e` covers
exactly the slots `[e * 432000, (e + 1) * 432000 - 1]`, the crawl window is
`min_slot = start_epoch * SLOTS_PER_EPOCH` and
`max_slot = (end_epoch + 1) * SLOTS_PER_EPOCH - 1` whenever that arithmetic
fits in a u64, and for large u64 epoch values the window arithmetic wraps
(it is not exact for all u64 inputs). -/
theorem C8_epoch_partition :
    (∀ s, epochOfSlot s = s / 432000)
    ∧ (∀ s t, s ≤ t → epochOfSlot s ≤ epochOfSlot t)
    ∧ (∀ e s, epochOfSlot s = e ↔ e * 432000 ≤ s ∧ s ≤ (e + 1) * 432000 - 1)
    ∧ (∀ start_epoch, start_epoch * SLOTS_PER_EPOCH < U64 →
        min_slot start_epoch = start_epoch * SLOTS_PER_EPOCH)
    ∧ (∀ end_epoch, (end_epoch + 1) * SLOTS_PER_EPOCH < U64 →
        max_slot end_epoch = (end_epoch + 1) * SLOTS_PER_EPOCH - 1)
    ∧ (∃ e, e < U64 ∧ max_slot e ≠ (e + 1) * SLOTS_PER_EPOCH - 1) := by
  refine ⟨fun s => rfl, ?_, ?_, ?_, ?_, ?_⟩
  · intro s t h
    exact Nat.div_le_div_right h
  · intro e s
    unfold epochOfSlot SLOTS_PER_EPOCH
    constructor
    · intro h
      have h1 : e * 432000 ≤ s := by
        rw [← Nat.le_div_iff_mul_le (by omega)]
        omega
      have h2 : s < (e + 1) * 432000 := by
        rw [← Nat.div_lt_iff_lt_mul (by omega)]
        omega
      omega
    · intro ⟨h1, h2⟩
      have h1' : e ≤ s / 432000 := (Nat.le_div_iff_mul_le (by omega)).mpr h1
      have h2' : s / 432000 < e + 1 := by
        rw [Nat.div_lt_iff_lt_mul (by omega)]
        have : 0 < (e + 1) * 432000 := by positivity
        omega
      omega
  · intro a h
    exact Nat.mod_eq_of_lt h
  · intro b h
    have hb1 : b + 1 < U64 := by
      have : (b + 1) * 1 ≤ (b + 1) * SLOTS_PER_EPOCH :=
        Nat.mul_le_mul_left _ SLOTS_PER_EPOCH_pos
      omega
    unfold max_slot
    rw [Nat.mod_eq_of_lt hb1, Nat.mod_eq_of_lt h]
    have hpos : 1 ≤ (b + 1) * SLOTS_PER_EPOCH :=
      Nat.mul_pos (by omega) SLOTS_PER_EPOCH_pos
    have hU : 0 < U64 := by unfold U64; positivity
    have hrw : (b + 1) * SLOTS_PER_EPOCH + (U64 - 1)
        = ((b + 1) * SLOTS_PER_EPOCH - 1) + U64 := by omega
    rw [hrw, Nat.add_mod_right]
    exact Nat.mod_eq_of_lt (by omega)
  · refine ⟨U64 - 1, by unfold U64; omega, ?_⟩
    have h1 : max_slot (U64 - 1) = U64 - 1 := by
      unfold max_slot U64
      norm_num
    rw [h1]
    unfold U64 SLOTS_PER_EPOCH
    norm_num

/-- Witness for C8 at concrete inputs: epochs 1 and 2, slot 1000000. -/
theorem C8_epoch_partition_witness :
    epochOfSlot 1000000 = 2
    ∧ min_slot 1 = 432000
    ∧ max_slot 2 = 1295999 := by
  refine ⟨?_, ?_, ?_⟩
  · have h := (C8_epoch_partition.2.2.1 2 1000000).mpr (by norm_num)
    exact h
  · have h := C8_epoch_partition.2.2.2.1 1 (by norm_num [SLOTS_PER_EPOCH, U64])
    simpa [SLOTS_PER_EPOCH] using h
  · have h := C8_epoch_partition.2.2.2.2.1 2 (by norm_num [SLOTS_PER_EPOCH, U64])
    simpa [SLOTS_PER_EPOCH] using h

/-- Claim C2: the range filter keeps exactly the entries with
`lo ≤ slot ≤ hi`; it sets the exhausted (`should_break`) signal iff some
entry of the page has `slot < lo`, and entries with `slot > hi` are dropped
without setting it.  On the spec's example page with slots
`[hi + 5, hi + 1, hi - 10, lo - 1]` (with `1 ≤ lo ≤ hi - 10`), the output is
exactly the `hi - 10` entry and the signal is set. -/
theorem C2_range_filter (lo hi : Nat) (page : List SignatureEntry)
    (h1 : 1 ≤ lo) (h2 : lo ≤ hi - 10) :
    (filterSignatures lo hi page false).1
      = page.filter (fun e => decide (lo ≤ e.slot) && decide (e.slot ≤ hi))
    ∧ ((filterSignatures lo hi page false).2 = true ↔ ∃ e ∈ page, e.slot < lo)
    ∧ filterSignatures lo hi
        [⟨"s1", hi + 5⟩, ⟨"s2", hi + 1⟩, ⟨"s3", hi - 10⟩, ⟨"s4", lo - 1⟩] false
      = ([⟨"s3", hi - 10⟩], true) := by
  refine ⟨filterSignatures_fst lo hi page false, ?_, ?_⟩
  · rw [filterSignatures_snd]
    simp [List.any_eq_true]
  · have ha : ¬ (hi + 5 < lo) := by omega
    have hb : ¬ (hi + 5 ≤ hi) := by omega
    have hc : ¬ (hi + 1 < lo) := by omega
    have hd : ¬ (hi + 1 ≤ hi) := by omega
    have he : ¬ (hi - 10 < lo) := by omega
    have hf : hi - 10 ≤ hi := by omega
    have hg : lo - 1 < lo := by omega
    simp [filterSignatures, ha, hb, hc, hd, he, hf, hg]

/-- Witness for C2 at `lo = 20`, `hi = 100` and a concrete page. -/
theorem C2_range_filter_witness :
    (filterSignatures 20 100 [⟨"a", 50⟩, ⟨"b", 300⟩] false).1
      = [SignatureEntry.mk "a" 50]
    ∧ ((filterSignatures 20 100 [⟨"a", 50⟩, ⟨"b", 300⟩] false).2 = true
        ↔ ∃ e ∈ [SignatureEntry.mk "a" 50, SignatureEntry.mk "b" 300], e.slot < 20)
    ∧ filterSignatures 20 100 [⟨"s1", 105⟩, ⟨"s2", 101⟩, ⟨"s3", 90⟩, ⟨"s4", 19⟩] false
      = ([⟨"s3", 90⟩], true) := by
  have h := C2_range_filter 20 100 [⟨"a", 50⟩, ⟨"b", 300⟩] (by omega) (by omega)
  exact ⟨by rw [h.1]; rfl, h.2.1, h.2.2⟩

theorem processChunk_before (account : String) (txOf : String → FetchOutcome)
    (s : CrawlState) (chunk : List SignatureEntry) :
    (processChunk account txOf s chunk).before = s.before := rfl

theorem foldl_processChunk_before (account : String) (txOf : String → FetchOutcome)
    (chs : List (List SignatureEntry)) :
    ∀ s : CrawlState,
      (chs.foldl (processChunk account txOf) s).before = s.before := by
  induction chs with
  | nil => intro s; rfl
  | cons ch rest ih =>
    intro s
    rw [List.foldl_cons, ih, processChunk_before]

theorem chunksGo_nil (c fuel : Nat) : chunksGo c fuel [] = [] := by
  cases fuel <;> rfl

theorem chunksGo_spec (c : Nat) (hc : 0 < c) :
    ∀ (fuel : Nat) (l : List SignatureEntry), l.length ≤ fuel →
      (chunksGo c fuel l).flatten = l
      ∧ (∀ ch ∈ chunksGo c fuel l, ch.length ≤ c ∧ ch ≠ [])
      ∧ (∀ ch ∈ (chunksGo c fuel l).dropLast, ch.length = c) := by
  intro fuel
  induction fuel with
  | zero =>
    intro l hl
    have hl0 : l = [] := List.length_eq_zero.mp (Nat.le_zero.mp hl)
    subst hl0
    exact ⟨rfl, by simp [chunksGo], by simp [chunksGo]⟩
  | succ fuel ih =>
    intro l hl
    cases l with
    | nil => exact ⟨rfl, by simp [chunksGo], by simp [chunksGo]⟩
    | cons x xs =>
      have hstep : chunksGo c (fuel + 1) (x :: xs)
          = (x :: xs).take c :: chunksGo c fuel ((x :: xs).drop c) := rfl
      have hlen : ((x :: xs).drop c).length ≤ fuel := by
        simp only [List.length_drop, List.length_cons]
        simp only [List.length_cons] at hl
        omega
      obtain ⟨ihj, ihb, ihd⟩ := ih ((x :: xs).drop c) hlen
      refine ⟨?_, ?_, ?_⟩
      · rw [hstep, List.flatten_cons, ihj, List.take_append_drop]
      · intro ch hch
        rw [hstep] at hch
        rcases List.mem_cons.mp hch with h | h
        · subst h
          constructor
          · simp [List.length_take]
          · have : 0 < ((x :: xs).take c).length := by
              simp [List.length_take]
              omega
            exact List.ne_nil_of_length_pos this
        · exact ihb ch h
      · intro ch hch
        rw [hstep] at hch
        cases hrest : chunksGo c fuel ((x :: xs).drop c) with
        | nil =>
          rw [hrest] at hch
          simp at hch
        | cons y ys =>
          rw [hrest] at hch
          rw [List.dropLast_cons₂] at hch
          rcases List.mem_cons.mp hch with h | h
          · subst h
            have hd : (x :: xs).drop c ≠ [] := by
              intro hnil
              rw [hnil, chunksGo_nil] at hrest
              exact List.noConfusion hrest
            have hlt : c < (x :: xs).length := by
              have := List.length_pos.mpr hd
              simp only [List.length_drop] at this
              omega
            simp only [List.length_take, List.length_cons]
            simp only [List.length_cons] at hlt
            omega
          · rw [hrest] at ihd
            exact ihd ch h

theorem extractParsedIx_keys_only (keys : List ParsedAccountKey)
    (ins1 ins2 : List ParsedInstruction) (ix : ParsedInstruction) :
    extractParsedIx (ParsedMessage.mk keys ins1) ix
      = extractParsedIx (ParsedMessage.mk keys ins2) ix := by
  cases ix <;> rfl

theorem extractRawIx_keys_only (rkeys : List String)
    (ins1 ins2 : List RawInstruction) (ix : RawInstruction) :
    extractRawIx (RawMessage.mk rkeys ins1) ix
      = extractRawIx (RawMessage.mk rkeys ins2) ix := rfl

theorem sum_map_len_eq_length (rs : List DetailResult)
    (hall : ∀ r ∈ rs, r.program_ids.length = 1) :
    (rs.map (fun r => r.program_ids.length)).sum = rs.length := by
  induction rs with
  | nil => rfl
  | cons r rest ih =>
    rw [List.map_cons, List.sum_cons, hall r (List.mem_cons_self r rest),
      ih (fun x hx => hall x (List.mem_cons_of_mem r hx)), List.length_cons]
    omega

theorem sum_map_feelen_eq_fees (rs : List DetailResult)
    (hall : ∀ r ∈ rs, r.program_ids.length = 1) :
    (rs.map (fun r => r.fee * r.program_ids.length)).sum
      = (rs.map DetailResult.fee).sum := by
  induction rs with
  | nil => rfl
  | cons r rest ih =>
    rw [List.map_cons, List.sum_cons, hall r (List.mem_cons_self r rest),
      ih (fun x hx => hall x (List.mem_cons_of_mem r hx)), List.map_cons,
      List.sum_cons, Nat.mul_one]

/-! Claim theorems for the remaining claims -/

/-- Claim C1 counterexample: a transaction with fee 5 whose two top-level
instructions both invoke program "P" (one distinct program, K = 1) produces
two ledger increments, ending at transaction_count 2 and total fee 10 — not
the claimed single increment per distinct program (1, 5), and the total
attributed fee is 10, not F * K = 5 * 1. -/
theorem C1_fee_attribution_cex :
    applyResult "A" [] (DetailResult.mk 0 5 ["P", "P"])
      = [((0, "P"), ProgramExpense.mk "A" 0 "P" 2 10)]
    ∧ sumCount (applyResult "A" [] (DetailResult.mk 0 5 ["P", "P"])) ≠ 1
    ∧ sumFee (applyResult "A" [] (DetailResult.mk 0 5 ["P", "P"])) ≠ 5 * 1 :=
  ⟨rfl, by decide, by decide⟩

/-- Claim C1 (amended): the aggregation step performs one ledger increment
per program-id occurrence in the transaction's top-level instructions (the
list is not deduplicated), each adding 1 to transaction_count and the full
fee F, so the total attributed fee is F times the number of occurrences;
when the K invoked programs are pairwise distinct, this is exactly K
increments of (1, F) and the total attributed fee is F * K. -/
theorem C1_fee_attribution (account : String) (r : DetailResult) :
    (∀ k, countAt (applyResult account [] r) k = occ k r
        ∧ feeAt (applyResult account [] r) k = r.fee * occ k r)
    ∧ sumCount (applyResult account [] r) = r.program_ids.length
    ∧ sumFee (applyResult account [] r) = r.fee * r.program_ids.length
    ∧ (r.program_ids.Nodup →
        ∀ p ∈ r.program_ids,
          countAt (applyResult account [] r) (r.slot / SLOTS_PER_EPOCH, p) = 1
          ∧ feeAt (applyResult account [] r) (r.slot / SLOTS_PER_EPOCH, p) = r.fee) := by
  refine ⟨?_, ?_, ?_, ?_⟩
  · intro k
    rw [countAt_applyResult, feeAt_applyResult, countAt_nil, feeAt_nil]
    exact ⟨Nat.zero_add _, Nat.zero_add _⟩
  · rw [sumCount_applyResult]
    simp [sumCount]
  · rw [sumFee_applyResult]
    simp [sumFee]
  · intro hnd p hp
    have hocc : occ (r.slot / SLOTS_PER_EPOCH, p) r = 1 := by
      unfold occ
      simp
      exact List.count_eq_one_of_mem hnd hp
    constructor
    · rw [countAt_applyResult, countAt_nil, hocc]
    · rw [feeAt_applyResult, feeAt_nil, hocc]
      omega

/-- Witness for the amended C1 at a concrete two-program transaction. -/
theorem C1_fee_attribution_witness :
    countAt (applyResult "B" [] (DetailResult.mk 3 7 ["P1", "P2"])) (0, "P1") = 1
    ∧ feeAt (applyResult "B" [] (DetailResult.mk 3 7 ["P1", "P2"])) (0, "P1") = 7
    ∧ sumFee (applyResult "B" [] (DetailResult.mk 3 7 ["P1", "P2"]))
        = 7 * (["P1", "P2"] : List String).length := by
  have h := C1_fee_attribution "B" (DetailResult.mk 3 7 ["P1", "P2"])
  have h2 := h.2.2.2 (by decide) "P1" (by decide)
  exact ⟨h2.1, h2.2, h.2.2.1⟩

/-- Claim C7: aggregation is order-independent — aggregating any two
permutations of the same list of detail results from the empty ledger
yields ledgers with the same lookup at every key (same keys, same
transaction counts, same fee sums). -/
theorem C7_merge_commutative (account : String) (rs rs' : List DetailResult)
    (h : rs.Perm rs') (k : Key) :
    lookupL (aggregate account [] rs) k = lookupL (aggregate account [] rs') k := by
  have hw1 := WFL_aggregate account rs [] (WFL_nil account)
  have hw2 := WFL_aggregate account rs' [] (WFL_nil account)
  have hp1 := POSL_aggregate account rs [] POSL_nil
  have hp2 := POSL_aggregate account rs' [] POSL_nil
  have hc : cnt k rs = cnt k rs' := by
    unfold cnt
    exact List.Perm.sum_eq (List.Perm.map (occ k) h)
  have hf : feeC k rs = feeC k rs' := by
    unfold feeC
    exact List.Perm.sum_eq (List.Perm.map _ h)
  rw [lookupL_eq_pointwise account _ hw1 hp1 k,
    lookupL_eq_pointwise account _ hw2 hp2 k,
    countAt_aggregate, countAt_aggregate, feeAt_aggregate, feeAt_aggregate,
    hc, hf]

/-- Witness for C7: swapping two concrete results leaves the ledger lookup
unchanged. -/
theorem C7_merge_commutative_witness :
    lookupL (aggregate "A" [] [DetailResult.mk 0 5 ["P"], DetailResult.mk 0 7 ["Q"]]) (0, "Q")
      = lookupL (aggregate "A" [] [DetailResult.mk 0 7 ["Q"], DetailResult.mk 0 5 ["P"]]) (0, "Q") :=
  C7_merge_commutative "A" _ _
    (List.Perm.swap (DetailResult.mk 0 7 ["Q"]) (DetailResult.mk 0 5 ["P"]) []) (0, "Q")

/-- Claim C5 counterexample: one account, one in-range transaction with fee
5 invoking two programs.  The run succeeds; the final ledger's rows sum to
transaction_count 2 and fee 10, while the grand totals are 1 processed
transaction and fee 5 — summing ledger records does not reproduce the grand
totals. -/
theorem C5_ledger_totals_cex :
    (runAll 0 431999 50
        (fun sg => if sg = "s1" then
            FetchOutcome.ok (TxResponse.mk (some (TxMeta.mk 5))
              (EncodedTransaction.json (UiMessage.parsed (ParsedMessage.mk []
                [ParsedInstruction.parsed (UiParsedIx.mk "P1"),
                  ParsedInstruction.parsed (UiParsedIx.mk "P2")]))))
          else FetchOutcome.err)
        (RunState.mk [] 0 0)
        [("A", [Except.ok [SignatureEntry.mk "s1" 10], Except.ok []])]).map
      (fun g => (sumCountG g.all, g.grand_total_processed, sumFeeG g.all,
        g.grand_total_fees))
      = Except.ok (2, 1, 10, 5)
    ∧ (2 : Nat) ≠ 1 ∧ (10 : Nat) ≠ 5 :=
  ⟨rfl, by decide, by decide⟩

/-- Claim C5 (amended): summing the final ledger's records gives the total
number of program-id occurrences (Σ over results of |program_ids|) and the
occurrence-weighted fee sum (Σ fee * |program_ids|), while the grand totals
count each processed result once (length, Σ fee); the two coincide exactly
when every processed transaction contributed exactly one program id. -/
theorem C5_ledger_totals (account : String) (rs : List DetailResult) :
    sumCount (aggregate account [] rs)
      = (rs.map (fun r => r.program_ids.length)).sum
    ∧ sumFee (aggregate account [] rs)
      = (rs.map (fun r => r.fee * r.program_ids.length)).sum
    ∧ ((∀ r ∈ rs, r.program_ids.length = 1) →
        sumCount (aggregate account [] rs) = rs.length
        ∧ sumFee (aggregate account [] rs) = (rs.map DetailResult.fee).sum) := by
  refine ⟨?_, ?_, ?_⟩
  · rw [sumCount_aggregate]
    simp [sumCount]
  · rw [sumFee_aggregate]
    simp [sumFee]
  · intro hall
    constructor
    · rw [sumCount_aggregate]
      simp [sumCount]
      exact sum_map_len_eq_length rs hall
    · rw [sumFee_aggregate]
      simp [sumFee]
      exact sum_map_feelen_eq_fees rs hall

/-- Witness for the amended C5 at a concrete single-program result list. -/
theorem C5_ledger_totals_witness :
    sumCount (aggregate "A" [] [DetailResult.mk 0 4 ["Q"]]) = 1
    ∧ sumFee (aggregate "A" [] [DetailResult.mk 0 4 ["Q"]])
        = ([DetailResult.mk 0 4 ["Q"]].map DetailResult.fee).sum := by
  have h := C5_ledger_totals "A" [DetailResult.mk 0 4 ["Q"]]
  exact h.2.2 (by decide)

/-- Claim C6: the detail fetcher yields `none` (never an error) on fetch
failure, signature-parse failure, undecodable (non-Json) transactions, and
transactions from which zero program identifiers are extracted; when it
yields a result the fee is the metadata fee, defaulting to 0 when metadata
is absent; and a `none` entry contributes nothing to its chunk, which
continues to process its siblings. -/
theorem C6_detail_leniency :
    (∀ slot, fetchDetail slot FetchOutcome.err = none)
    ∧ (∀ slot, fetchDetail slot FetchOutcome.badSignature = none)
    ∧ (∀ slot meta,
        fetchDetail slot (FetchOutcome.ok (TxResponse.mk meta EncodedTransaction.other))
          = none)
    ∧ (∀ slot meta msg, extractProgramIds msg = [] →
        fetchDetail slot
            (FetchOutcome.ok (TxResponse.mk meta (EncodedTransaction.json msg)))
          = none)
    ∧ (∀ slot msg, extractProgramIds msg ≠ [] →
        fetchDetail slot
            (FetchOutcome.ok (TxResponse.mk none (EncodedTransaction.json msg)))
          = some (DetailResult.mk slot 0 (extractProgramIds msg)))
    ∧ (∀ slot m msg, extractProgramIds msg ≠ [] →
        fetchDetail slot
            (FetchOutcome.ok (TxResponse.mk (some m) (EncodedTransaction.json msg)))
          = some (DetailResult.mk slot m.fee (extractProgramIds msg)))
    ∧ (∀ account txOf s (pre post : List SignatureEntry) e,
        fetchDetail e.slot (txOf e.signature) = none →
        processChunk account txOf s (pre ++ e :: post)
          = processChunk account txOf s (pre ++ post)) := by
  refine ⟨fun slot => rfl, fun slot => rfl, fun slot meta => rfl, ?_, ?_, ?_, ?_⟩
  · intro slot meta msg h
    simp [fetchDetail, h]
  · intro slot msg h
    simp [fetchDetail, h]
  · intro slot m msg h
    simp [fetchDetail, h]
  · intro account txOf s pre post e h
    simp [processChunk, List.filterMap_append, List.filterMap_cons, h]

/-- Witness for C6: a raw transaction whose only instruction has an
out-of-bounds index yields `none`; a parsed one-instruction transaction
with metadata fee 9 yields that fee. -/
theorem C6_detail_leniency_witness :
    fetchDetail 3
        (FetchOutcome.ok (TxResponse.mk (some (TxMeta.mk 9))
          (EncodedTransaction.json (UiMessage.raw (RawMessage.mk [] [RawInstruction.mk 5])))))
      = none
    ∧ fetchDetail 3
        (FetchOutcome.ok (TxResponse.mk (some (TxMeta.mk 9))
          (EncodedTransaction.json (UiMessage.parsed (ParsedMessage.mk []
            [ParsedInstruction.parsed (UiParsedIx.mk "P")])))))
      = some (DetailResult.mk 3 9
          (extractProgramIds (UiMessage.parsed (ParsedMessage.mk []
            [ParsedInstruction.parsed (UiParsedIx.mk "P")])))) := by
  constructor
  · exact C6_detail_leniency.2.2.2.1 3 (some (TxMeta.mk 9))
      (UiMessage.raw (RawMessage.mk [] [RawInstruction.mk 5])) rfl
  · exact C6_detail_leniency.2.2.2.2.2.1 3 (TxMeta.mk 9)
      (UiMessage.parsed (ParsedMessage.mk []
        [ParsedInstruction.parsed (UiParsedIx.mk "P")])) (by decide)

/-- Claim C9: a compiled instruction (parsed or raw message shape) whose
program index is out of bounds for the account-keys table is silently
skipped — it contributes no program identifier and the extraction stays
total — while an in-bounds index contributes exactly the identifier stored
at that index. -/
theorem C9_index_bounds (keys : List ParsedAccountKey)
    (pre post : List ParsedInstruction) (cix : UiCompiledIx)
    (rkeys : List String) (rpre rpost : List RawInstruction)
    (ri : RawInstruction) :
    (keys.length ≤ cix.program_id_index →
      extractProgramIds (UiMessage.parsed
          (ParsedMessage.mk keys (pre ++ ParsedInstruction.compiled cix :: post)))
        = extractProgramIds (UiMessage.parsed (ParsedMessage.mk keys (pre ++ post))))
    ∧ (∀ h : cix.program_id_index < keys.length,
        extractParsedIx (ParsedMessage.mk keys (pre ++ ParsedInstruction.compiled cix :: post))
            (ParsedInstruction.compiled cix)
          = [(keys.get ⟨cix.program_id_index, h⟩).pubkey])
    ∧ (rkeys.length ≤ ri.program_id_index →
        extractProgramIds (UiMessage.raw (RawMessage.mk rkeys (rpre ++ ri :: rpost)))
          = extractProgramIds (UiMessage.raw (RawMessage.mk rkeys (rpre ++ rpost))))
    ∧ (∀ h : ri.program_id_index < rkeys.length,
        extractRawIx (RawMessage.mk rkeys (rpre ++ rpost)) ri
          = [rkeys.get ⟨ri.program_id_index, h⟩]) := by
  refine ⟨?_, ?_, ?_, ?_⟩
  · intro h
    have hno : ¬ cix.program_id_index < keys.length := by omega
    have hfun : extractParsedIx
          (ParsedMessage.mk keys (pre ++ ParsedInstruction.compiled cix :: post))
        = extractParsedIx (ParsedMessage.mk keys (pre ++ post)) :=
      funext (fun ix => extractParsedIx_keys_only keys _ _ ix)
    simp [extractProgramIds, List.flatMap_append, List.flatMap_cons,
      extractParsedIx, hno, hfun]
  · intro h
    simp [extractParsedIx, h]
  · intro h
    have hno : ¬ ri.program_id_index < rkeys.length := by omega
    have hfun : extractRawIx (RawMessage.mk rkeys (rpre ++ ri :: rpost))
        = extractRawIx (RawMessage.mk rkeys (rpre ++ rpost)) :=
      funext (fun ix => extractRawIx_keys_only rkeys _ _ ix)
    simp [extractProgramIds, List.flatMap_append, List.flatMap_cons,
      extractRawIx, hno, hfun]
  · intro h
    simp [extractRawIx, h]

/-- Witness for C9 at concrete instruction tables. -/
theorem C9_index_bounds_witness :
    extractProgramIds (UiMessage.parsed (ParsedMessage.mk [ParsedAccountKey.mk "K0"]
        ([] ++ ParsedInstruction.compiled (UiCompiledIx.mk 3) :: [])))
      = extractProgramIds (UiMessage.parsed
          (ParsedMessage.mk [ParsedAccountKey.mk "K0"] ([] ++ [])))
    ∧ extractRawIx (RawMessage.mk ["R0", "R1"] ([] ++ [])) (RawInstruction.mk 1)
      = [(["R0", "R1"] : List String).get ⟨1, by decide⟩] := by
  have h := C9_index_bounds [ParsedAccountKey.mk "K0"] [] []
    (UiCompiledIx.mk 3) ["R0", "R1"] [] [] (RawInstruction.mk 1)
  exact ⟨h.1 (by decide), h.2.2.2 (by decide)⟩

/-- Claim C3: for a non-empty page the next-page cursor is the signature of
the last (oldest) entry of the unfiltered page, independent of the range
filter; when the page's processing does not break, the orchestrator loops
back with that advanced state; and a page breaks the loop exactly when it
is empty or the exhausted signal is set after filtering it. -/
theorem C3_cursor_and_termination (account : String) (lo hi c : Nat)
    (txOf : String → FetchOutcome) (s : CrawlState) (page : List SignatureEntry)
    (rest : List (List SignatureEntry)) :
    (page ≠ [] →
      (processPage account lo hi c txOf s page).1.before
        = page.getLast?.map SignatureEntry.signature)
    ∧ ((processPage account lo hi c txOf s page).2 = false →
        crawlAccount account lo hi c txOf s (page :: rest)
          = crawlAccount account lo hi c txOf
              (processPage account lo hi c txOf s page).1 rest)
    ∧ ((processPage account lo hi c txOf s page).2 = true
        ↔ page = [] ∨ (filterSignatures lo hi page s.should_break).2 = true) := by
  refine ⟨?_, ?_, ?_⟩
  · intro h
    cases page with
    | nil => exact absurd rfl h
    | cons x xs =>
      simp only [processPage, List.isEmpty_cons, Bool.false_eq_true, if_false]
      by_cases hv : (filterSignatures lo hi (x :: xs) s.should_break).1.isEmpty
      · simp [hv]
      · simp [hv, foldl_processChunk_before]
  · intro h
    simp only [crawlAccount]
    simp [h]
  · cases page with
    | nil => simp [processPage]
    | cons x xs =>
      simp only [processPage, List.isEmpty_cons, Bool.false_eq_true, if_false]
      by_cases hv : (filterSignatures lo hi (x :: xs) s.should_break).1.isEmpty
      · simp [hv]
      · simp [hv]

/-- Witness for C3 at a concrete one-entry page. -/
theorem C3_cursor_and_termination_witness :
    (processPage "A" 0 100 1 (fun _ => FetchOutcome.err) initState
        [SignatureEntry.mk "x" 5]).1.before
      = ([SignatureEntry.mk "x" 5] : List SignatureEntry).getLast?.map
          SignatureEntry.signature
    ∧ ((processPage "A" 0 100 1 (fun _ => FetchOutcome.err) initState
          [SignatureEntry.mk "x" 5]).2 = true
        ↔ ([SignatureEntry.mk "x" 5] : List SignatureEntry) = []
          ∨ (filterSignatures 0 100 [SignatureEntry.mk "x" 5]
              initState.should_break).2 = true) := by
  have h := C3_cursor_and_termination "A" 0 100 1 (fun _ => FetchOutcome.err)
    initState [SignatureEntry.mk "x" 5] []
  exact ⟨h.1 (List.cons_ne_nil _ _), h.2.2⟩

/-- Claim C4 counterexample: an account whose first page aggregates one
transaction (processed 1, fee 5, two ledger rows) and whose second page
fetch fails.  The run result is the propagated error — the pre-failure
aggregation is NOT merged into any cross-account ledger or grand totals,
contradicting the claimed fail-forward retention. -/
theorem C4_page_failure_cex :
    runAll 0 431999 50
        (fun sg => if sg = "s1" then
            FetchOutcome.ok (TxResponse.mk (some (TxMeta.mk 5))
              (EncodedTransaction.json (UiMessage.parsed (ParsedMessage.mk []
                [ParsedInstruction.parsed (UiParsedIx.mk "P1"),
                  ParsedInstruction.parsed (UiParsedIx.mk "P2")]))))
          else FetchOutcome.err)
        (RunState.mk [] 0 0)
        [("A", [Except.ok [SignatureEntry.mk "s1" 10], Except.error ()])]
      = Except.error ()
    ∧ (crawlAccountE "A" 0 431999 50
        (fun sg => if sg = "s1" then
            FetchOutcome.ok (TxResponse.mk (some (TxMeta.mk 5))
              (EncodedTransaction.json (UiMessage.parsed (ParsedMessage.mk []
                [ParsedInstruction.parsed (UiParsedIx.mk "P1"),
                  ParsedInstruction.parsed (UiParsedIx.mk "P2")]))))
          else FetchOutcome.err)
        initState [Except.ok [SignatureEntry.mk "s1" 10]]).map
        (fun s => (s.processed, s.total_fees, sumCount s.ledger))
      = Except.ok (1, 5, 2) :=
  ⟨rfl, rfl⟩

/-- Claim C4 (amended): a failed page fetch propagates as an error that
terminates not just the account's crawl but the whole run — the failing
account's partial aggregation is discarded (never merged into the
cross-account ledger or grand totals) and the run yields no output. -/
theorem C4_page_failure_propagation (account : String) (lo hi c : Nat)
    (txOf : String → FetchOutcome) (g : RunState)
    (script : List (Except Unit (List SignatureEntry)))
    (rest : List (String × List (Except Unit (List SignatureEntry)))) :
    (∀ (s : CrawlState) (rest' : List (Except Unit (List SignatureEntry))),
        crawlAccountE account lo hi c txOf s (Except.error () :: rest')
          = Except.error ())
    ∧ (crawlAccountE account lo hi c txOf initState script = Except.error () →
        runAll lo hi c txOf g ((account, script) :: rest) = Except.error ()) := by
  constructor
  · intro s rest'
    rfl
  · intro h
    simp only [runAll]
    rw [h]

/-- Witness for the amended C4 at a concrete failing script. -/
theorem C4_page_failure_propagation_witness :
    runAll 0 100 1 (fun _ => FetchOutcome.err) (RunState.mk [] 0 0)
        [("A", [Except.error ()])]
      = Except.error () := by
  have h := C4_page_failure_propagation "A" 0 100 1 (fun _ => FetchOutcome.err)
    (RunState.mk [] 0 0) [Except.error ()] []
  exact h.2 (h.1 initState [])

/-- Claim C10: for every concurrency limit `c > 0` the chunk partition is
exact — the chunks concatenate back to the input, every chunk is non-empty
of size at most `c`, and every chunk except possibly the last has size
exactly `c`; with `c = 0` the partition is the modelled panic (`none`), so
`c > 0` is required for the dispatcher to be total. -/
theorem C10_chunk_partition (c : Nat) (l : List SignatureEntry) (hc : 0 < c) :
    (∃ cs, chunks c l = some cs
      ∧ cs.flatten = l
      ∧ (∀ ch ∈ cs, ch.length ≤ c ∧ ch ≠ [])
      ∧ (∀ ch ∈ cs.dropLast, ch.length = c))
    ∧ chunks 0 l = none := by
  obtain ⟨hj, hb, hd⟩ := chunksGo_spec c hc l.length l le_rfl
  refine ⟨⟨chunksL c l, ?_, hj, hb, hd⟩, rfl⟩
  simp [chunks, Nat.pos_iff_ne_zero.mp hc]

/-- Witness for C10 at a concrete three-entry list with `c = 2`. -/
theorem C10_chunk_partition_witness :
    (∃ cs, chunks 2 [SignatureEntry.mk "a" 1, SignatureEntry.mk "b" 2,
        SignatureEntry.mk "c" 3] = some cs
      ∧ cs.flatten = [SignatureEntry.mk "a" 1, SignatureEntry.mk "b" 2,
          SignatureEntry.mk "c" 3]
      ∧ (∀ ch ∈ cs, ch.length ≤ 2 ∧ ch ≠ [])
      ∧ (∀ ch ∈ cs.dropLast, ch.length = 2))
    ∧ chunks 0 [SignatureEntry.mk "a" 1] = none :=
  ⟨(C10_chunk_partition 2 [SignatureEntry.mk "a" 1, SignatureEntry.mk "b" 2,
      SignatureEntry.mk "c" 3] (by decide)).1,
    (C10_chunk_partition 1 [SignatureEntry.mk "a" 1] (by decide)).2⟩

end Melt
